import Mathlib

/-!
Verification of the stock-ledger and category-hierarchy logic of the
`ecommerce-store` backend.

The JavaScript handlers are shallowly embedded as pure Lean functions:

* the Mongo `Product` / `Category` collections become Lean lists of
  structures, `findById` becomes a first-match search on the list, and a
  `save()` of a fetched-and-mutated document becomes a first-match
  in-place update of the list;
* a `throw` inside a handler becomes an `Except` error result; the
  database state after a handler that threw is the state at the moment of
  the throw (all product writes of `createOrder` happen in its second
  loop, after every check, and all product writes of `cancelOrder` happen
  after its status and authorization checks, so an error leaves the
  product list untouched — `storeAfterCreate` / `storeAfterCancel` make
  that state explicit);
* JavaScript numbers holding stock counts and quantities become `Int`
  (the code never guards against negative values, so `Nat` would be
  unfaithful);
* fields of the Mongoose schemas that no claim mentions (names, prices,
  images, slugs, timestamps, …) are omitted from the structures; the
  handlers' updates of those fields are likewise omitted.

Source files embedded: `backend/controllers/orderController.js`,
`backend/controllers/categoryController.js`, the product controller's
`updateProduct`, and the `Product`/`Category` Mongoose schemas.
-/

namespace EcommerceStore

/-- A product variant: `variantSchema` (name, stock); other fields omitted. -/
structure Variant where
  name : String
  stock : Int
deriving DecidableEq

/-- A product document: `productSchema` (id, category reference, stock,
variants); other fields omitted.  The schema puts no lower bound on
`stock` (no `min: 0`). -/
structure Product where
  id : Nat
  category : Nat
  stock : Int
  variants : List Variant
deriving DecidableEq

/-- One order line item `{product, variant?, quantity}`.  `variantName =
none` models both an absent `item.variant` and a falsy `item.variant.name`,
the two cases the handlers treat identically. -/
structure Item where
  product : Nat
  variantName : Option String
  quantity : Int
deriving DecidableEq

/-- The errors thrown by the order handlers. -/
inductive OrderErr where
  | noOrderItems
  | productNotFound (pid : Nat)
  | variantNotFound (name : String)
  | insufficientStock (available : Int)
  | cannotCancel
  | notAuthorized
deriving DecidableEq

/-- `Product.findById`: the store is a list, lookup is first match on id. -/
def findById (store : List Product) (pid : Nat) : Option Product :=
  store.find? (fun p => p.id = pid)

/-- `product.variants.find(v => v.name === name)`. -/
def findVariant (p : Product) (n : String) : Option Variant :=
  p.variants.find? (fun v => v.name = n)

/-- One iteration of `createOrder`'s validation loop (lines 27–53): fetch
the product, resolve the variant when one is named, and compare the
requested quantity against the resolved counter. -/
def checkItem (store : List Product) (it : Item) : Except OrderErr Unit :=
  match findById store it.product with
  | none => .error (.productNotFound it.product)
  | some p =>
    match it.variantName with
    | some n =>
      match findVariant p n with
      | none => .error (.variantNotFound n)
      | some v =>
        if v.stock < it.quantity then .error (.insufficientStock v.stock)
        else .ok ()
    | none =>
      if p.stock < it.quantity then .error (.insufficientStock p.stock)
      else .ok ()

/-- The whole validation loop: stop at the first failing item.  The loop
only reads the store, it never writes. -/
def checkItems (store : List Product) : List Item → Except OrderErr Unit
  | [] => .ok ()
  | it :: rest =>
    match checkItem store it with
    | .error e => .error e
    | .ok () => checkItems store rest

/-- Fetch-mutate-save of one product document: the first product whose id
matches is replaced by `f` of it; a missing id leaves the store unchanged
(`cancelOrder` guards with `if (product)`; in `createOrder`'s decrement
loop the product is known to exist because validation passed). -/
def updateFirstProduct (pid : Nat) (f : Product → Product) : List Product → List Product
  | [] => []
  | p :: ps => if p.id = pid then f p :: ps else p :: updateFirstProduct pid f ps

/-- `findIndex(v => v.name === name)` followed by `stock += d` on that
index, a no-op when the index is `-1`: the first variant with the given
name has `d` added to its stock. -/
def adjustVariant (n : String) (d : Int) : List Variant → List Variant
  | [] => []
  | v :: vs =>
    if v.name = n then { v with stock := v.stock + d } :: vs
    else v :: adjustVariant n d vs

/-- The per-document stock mutation shared by `createOrder`'s decrement
loop (`d = -quantity`) and `cancelOrder`'s restore loop (`d = +quantity`):
variant named → adjust that variant's counter, else adjust the
product-level counter. -/
def stockDelta (n? : Option String) (d : Int) (p : Product) : Product :=
  match n? with
  | some n => { p with variants := adjustVariant n d p.variants }
  | none => { p with stock := p.stock + d }

/-- One iteration of `createOrder`'s decrement loop (lines 72–90). -/
def applyItem (store : List Product) (it : Item) : List Product :=
  updateFirstProduct it.product (stockDelta it.variantName (-it.quantity)) store

/-- The decrement loop over all items, in caller order. -/
def applyItems (store : List Product) (items : List Item) : List Product :=
  items.foldl applyItem store

/-- One iteration of `cancelOrder`'s stock-restoration loop (lines 301–322). -/
def releaseItem (store : List Product) (it : Item) : List Product :=
  updateFirstProduct it.product (stockDelta it.variantName it.quantity) store

/-- The restoration loop over all items, in stored order. -/
def releaseItems (store : List Product) (items : List Item) : List Product :=
  items.foldl releaseItem store

/-- `createOrder`'s effect on the product collection: reject an empty item
list (`orderItems.length === 0` → "No order items"), run the validation
loop, and only when every item passed run the decrement loop. -/
def createOrder (store : List Product) (items : List Item) : Except OrderErr (List Product) :=
  if items.isEmpty then .error .noOrderItems
  else
    match checkItems store items with
    | .error e => .error e
    | .ok () => .ok (applyItems store items)

/-- The product collection after the `createOrder` handler returns or
throws: a throw happens inside the read-only validation loop, before any
product write, so it leaves the collection as it was. -/
def storeAfterCreate (store : List Product) (items : List Item) : List Product :=
  match createOrder store items with
  | .ok s => s
  | .error _ => store

/-- Order status values (`pending`, `processing`, `delivered`,
`cancelled`).  Modelled from the spec: `orderModel.js` is not among the
provided sources; the spec fixes this enumeration. -/
inductive OrderStatus where
  | pending
  | processing
  | delivered
  | cancelled
deriving DecidableEq

/-- An order document: status, paid/delivered flags, line items; other
fields omitted. -/
structure Order where
  status : OrderStatus
  isPaid : Bool
  isDelivered : Bool
  orderItems : List Item
deriving DecidableEq

/-- The order document built by `createOrder` (`new Order({...})` passes
no status or flags).  Modelled from the spec: the schema defaults live in
the missing `orderModel.js`; the spec says an order is created in
`pending`, unpaid and undelivered. -/
def newOrder (items : List Item) : Order :=
  { status := .pending, isPaid := false, isDelivered := false, orderItems := items }

/-- `updateOrderToPaid` (lines 123–143) on a found order: sets the paid
flag and unconditionally sets the status to `processing`. -/
def updateOrderToPaid (o : Order) : Order :=
  { o with isPaid := true, status := .processing }

/-- `updateOrderToDelivered` (lines 148–163) on a found order: sets the
delivered flag and unconditionally sets the status to `delivered`. -/
def updateOrderToDelivered (o : Order) : Order :=
  { o with isDelivered := true, status := .delivered }

/-- `updateOrderStatus` (lines 168–195) on a found order: `order.status =
status || order.status`, then the delivered bookkeeping when the requested
status is `delivered`.  No current-status guard of any kind. -/
def updateOrderStatus (o : Order) (s? : Option OrderStatus) : Order :=
  let o₁ := { o with status := s?.getD o.status }
  if s? = some .delivered ∧ o.isDelivered = false then { o₁ with isDelivered := true }
  else o₁

/-- `cancelOrder` (lines 275–326) on a found order: reject unless the
status is `pending` or `processing`, reject a non-owner non-admin, then
set the status to `cancelled` and run the stock-restoration loop.
`isOwnerOrAdmin` stands for the request-user check. -/
def cancelOrder (store : List Product) (o : Order) (isOwnerOrAdmin : Bool) :
    Except OrderErr (Order × List Product) :=
  if o.status ≠ .pending ∧ o.status ≠ .processing then .error .cannotCancel
  else if isOwnerOrAdmin = false then .error .notAuthorized
  else .ok ({ o with status := .cancelled }, releaseItems store o.orderItems)

/-- The product collection after the `cancelOrder` handler returns or
throws: both throws happen before the restoration loop. -/
def storeAfterCancel (store : List Product) (o : Order) (isOwnerOrAdmin : Bool) :
    List Product :=
  match cancelOrder store o isOwnerOrAdmin with
  | .ok (_, s) => s
  | .error _ => store

/-- `updateProduct` (product controller, lines 533–575), restricted to the
stock-bearing fields: `product.stock = stock !== undefined ? stock :
product.stock` and `if (variants) product.variants = variants`.  No
validation of the supplied values. -/
def updateProduct (p : Product) (stock? : Option Int) (variants? : Option (List Variant)) :
    Product :=
  { p with stock := stock?.getD p.stock, variants := variants?.getD p.variants }

/-- A category document: id and optional parent reference; other fields
omitted. -/
structure Category where
  id : Nat
  parent : Option Nat
deriving DecidableEq

/-- The errors thrown by the category handlers. -/
inductive CatErr where
  | notFound
  | invalidHierarchy
  | hasChildren
  | hasProducts
deriving DecidableEq

/-- `Category.findById` on the list-modelled collection. -/
def findCategory (cats : List Category) (cid : Nat) : Option Category :=
  cats.find? (fun c => c.id = cid)

/-- `nextParent = await Category.findById(parentId); parentId = nextParent
? nextParent.parent : null`: one hop of the ancestor walk; a dangling id
behaves like a root. -/
def parentOf (cats : List Category) (cid : Nat) : Option Nat :=
  (findCategory cats cid).bind Category.parent

/-- The `while (parentId)` ancestor walk of `updateCategory` (lines
196–204), made total with a fuel parameter: `some true` = the target id
was met (circular reference), `some false` = a null parent was reached,
`none` = the fuel ran out (the JavaScript loop would still be running). -/
def walkUp (cats : List Category) (target : Nat) : Option Nat → Nat → Option Bool
  | none, _ => some false
  | some _, 0 => none
  | some pid, fuel + 1 =>
    if pid = target then some true
    else walkUp cats target (parentOf cats pid) fuel

/-- `category.parent = p; category.save()`: first-match update of the
parent reference. -/
def setParent (cats : List Category) (cid : Nat) (np : Option Nat) : List Category :=
  match cats with
  | [] => []
  | c :: cs =>
    if c.id = cid then { c with parent := np } :: cs
    else c :: setParent cs cid np

/-- `updateCategory` (lines 179–221), restricted to the parent field.
`newParent = none` models an absent (`undefined`) body field (keep the old
parent), `some none` an explicit `null`, `some (some p)` a proposed
parent id.  The self-parent check runs first; then, for a truthy parent,
the ancestor walk starts at the proposed parent's parent.  The result is
`none` when the walk runs out of fuel (`cats.length + 1` hops), i.e. when
the JavaScript loop would not have terminated. -/
def updateCategory (cats : List Category) (cid : Nat) (newParent : Option (Option Nat)) :
    Option (Except CatErr (List Category)) :=
  match findCategory cats cid with
  | none => some (.error .notFound)
  | some c =>
    match newParent with
    | some (some p) =>
      if p = c.id then some (.error .invalidHierarchy)
      else
        match walkUp cats c.id (parentOf cats p) (cats.length + 1) with
        | none => none
        | some true => some (.error .invalidHierarchy)
        | some false => some (.ok (setParent cats c.id (some p)))
    | some none => some (.ok (setParent cats c.id none))
    | none => some (.ok cats)

/-- `deleteCategory` (lines 226–252): not-found check, then the
subcategory check (`Category.exists({ parent })`), then the product check
(`Product.exists({ category })`), then `category.remove()` (first-match
erase).  The checks run in exactly this order. -/
def deleteCategory (cats : List Category) (prods : List Product) (cid : Nat) :
    Except CatErr (List Category) :=
  match findCategory cats cid with
  | none => .error .notFound
  | some c =>
    if cats.any (fun k => k.parent = some c.id) then .error .hasChildren
    else if prods.any (fun p => p.category = c.id) then .error .hasProducts
    else .ok (cats.eraseP (fun k => k.id = c.id))

/-- The per-item success condition of `createOrder`'s validation loop,
read off the pre-state: the product resolves, a named variant resolves,
and the requested quantity is at most the resolved counter. -/
def itemFits (store : List Product) (it : Item) : Prop :=
  match findById store it.product with
  | none => False
  | some p =>
    match it.variantName with
    | some n =>
      match findVariant p n with
      | none => False
      | some v => it.quantity ≤ v.stock
    | none => it.quantity ≤ p.stock

/-- The item's product and named variant resolve (the stock comparison is
not required). -/
def itemResolves (store : List Product) (it : Item) : Prop :=
  match findById store it.product with
  | none => False
  | some p =>
    match it.variantName with
    | some n =>
      match findVariant p n with
      | none => False
      | some _ => True
    | none => True

/-- Total quantity the item list requests against the product-level
counter of product `pid` (items with no variant name). -/
def reqNV : List Item → Nat → Int
  | [], _ => 0
  | it :: rest, pid =>
    (if it.product = pid ∧ it.variantName = none then it.quantity else 0) + reqNV rest pid

/-- Total quantity the item list requests against the variant counter
`n` of product `pid`. -/
def reqV : List Item → Nat → String → Int
  | [], _, _ => 0
  | it :: rest, pid, n =>
    (if it.product = pid ∧ it.variantName = some n then it.quantity else 0) + reqV rest pid n

/-- The expected effect of a successful reservation on one product
document: every counter drops by the total quantity requested against it. -/
def reserveSpec (items : List Item) (p : Product) : Product :=
  { p with
    stock := p.stock - reqNV items p.id
    variants := p.variants.map (fun v => { v with stock := v.stock - reqV items p.id v.name }) }

/-- All counters of one product document are non-negative. -/
def nonnegP (p : Product) : Prop :=
  0 ≤ p.stock ∧ ∀ v ∈ p.variants, 0 ≤ v.stock

/-- All counters of the whole collection are non-negative. -/
def nonnegStore (store : List Product) : Prop :=
  ∀ p ∈ store, nonnegP p

/-- Acyclicity of the stored parent graph, witnessed by a rank function
that strictly decreases along every parent edge and is bounded by the
collection size. -/
def Acyclic (cats : List Category) (rank : Nat → Nat) : Prop :=
  (∀ c ∈ cats, match c.parent with
    | some p => rank p < rank c.id
    | none => True) ∧
  (∀ c ∈ cats, rank c.id < cats.length)

/-- Fuel needed from a given walk position: `0` at a root, `rank + 1` at
a live node. -/
def rankOpt (rank : Nat → Nat) : Option Nat → Nat
  | none => 0
  | some pid => rank pid + 1

/-- `target` appears somewhere in the parent chain starting at the given
position (walking parent references up to a root): the spec-side notion of
"the category's id appears in the ancestor chain". -/
inductive InChain (cats : List Category) (target : Nat) : Option Nat → Prop where
  | hit : InChain cats target (some target)
  | step (pid : Nat) : pid ≠ target → InChain cats target (parentOf cats pid) →
      InChain cats target (some pid)

/-! ### Algebra of the per-document stock mutations -/

theorem adjustVariant_map_name (n : String) (d : Int) (vs : List Variant) :
    (adjustVariant n d vs).map Variant.name = vs.map Variant.name := by
  induction vs with
  | nil => rfl
  | cons v vs ih =>
    by_cases h : v.name = n <;> simp [adjustVariant, h, ih]

theorem adjustVariant_id (n : String) (vs : List Variant) :
    adjustVariant n 0 vs = vs := by
  induction vs with
  | nil => rfl
  | cons v vs ih =>
    obtain ⟨vn, vstock⟩ := v
    by_cases h : vn = n
    · subst h; simp [adjustVariant]
    · simp [adjustVariant, h, ih]

theorem adjustVariant_comp (n : String) (d e : Int) (vs : List Variant) :
    adjustVariant n d (adjustVariant n e vs) = adjustVariant n (e + d) vs := by
  induction vs with
  | nil => rfl
  | cons v vs ih =>
    by_cases h : v.name = n
    · simp [adjustVariant, h, add_assoc]
    · simp [adjustVariant, h, ih]

theorem adjustVariant_comm (n m : String) (d e : Int) (vs : List Variant) :
    adjustVariant n d (adjustVariant m e vs) = adjustVariant m e (adjustVariant n d vs) := by
  by_cases hnm : n = m
  · subst hnm
    rw [adjustVariant_comp, adjustVariant_comp, add_comm]
  · have hmn : ¬ m = n := fun h => hnm h.symm
    induction vs with
    | nil => rfl
    | cons v vs ih =>
      by_cases hm : v.name = m
      · have hn : ¬ v.name = n := fun h => hnm (h ▸ hm)
        simp [adjustVariant, hm, hn, hnm, hmn]
      · by_cases hn : v.name = n
        · simp [adjustVariant, hm, hn, hnm, hmn]
        · simp [adjustVariant, hm, hn, ih]

theorem stockDelta_id (n? : Option String) (p : Product) :
    stockDelta n? 0 p = p := by
  cases n? with
  | none => simp [stockDelta]
  | some n => simp [stockDelta, adjustVariant_id]

theorem stockDelta_comp (n? : Option String) (d e : Int) (p : Product) :
    stockDelta n? d (stockDelta n? e p) = stockDelta n? (e + d) p := by
  cases n? with
  | none => simp [stockDelta, add_assoc]
  | some n => simp [stockDelta, adjustVariant_comp]

theorem stockDelta_comm (n? m? : Option String) (d e : Int) (p : Product) :
    stockDelta n? d (stockDelta m? e p) = stockDelta m? e (stockDelta n? d p) := by
  cases n? with
  | none =>
    cases m? with
    | none => simp [stockDelta, add_right_comm]
    | some m => simp [stockDelta]
  | some n =>
    cases m? with
    | none => simp [stockDelta]
    | some m => simp [stockDelta, adjustVariant_comm]

theorem stockDelta_pres_id (n? : Option String) (d : Int) (p : Product) :
    (stockDelta n? d p).id = p.id := by
  cases n? <;> rfl

/-! ### Algebra of first-match document updates -/

theorem updateFirstProduct_comp (pid : Nat) (f g : Product → Product)
    (hg : ∀ p, (g p).id = p.id) (s : List Product) :
    updateFirstProduct pid f (updateFirstProduct pid g s) =
      updateFirstProduct pid (fun p => f (g p)) s := by
  induction s with
  | nil => rfl
  | cons p ps ih =>
    by_cases h : p.id = pid
    · simp [updateFirstProduct, h, hg]
    · simp [updateFirstProduct, h, ih]

theorem updateFirstProduct_comm (pid pid' : Nat) (hne : pid ≠ pid')
    (f g : Product → Product) (hf : ∀ p, (f p).id = p.id) (hg : ∀ p, (g p).id = p.id)
    (s : List Product) :
    updateFirstProduct pid f (updateFirstProduct pid' g s) =
      updateFirstProduct pid' g (updateFirstProduct pid f s) := by
  have hne' : ¬ pid' = pid := fun hc => hne hc.symm
  induction s with
  | nil => rfl
  | cons p ps ih =>
    by_cases h' : p.id = pid'
    · have h : ¬ p.id = pid := fun hc => hne' (h' ▸ hc)
      simp [updateFirstProduct, h, h', hg, hne, hne']
    · by_cases h : p.id = pid
      · simp [updateFirstProduct, h, h', hf, hne, hne']
      · simp [updateFirstProduct, h, h', ih]

theorem updateFirstProduct_congr_id (pid : Nat) (f : Product → Product)
    (hf : ∀ p, f p = p) (s : List Product) :
    updateFirstProduct pid f s = s := by
  induction s with
  | nil => rfl
  | cons p ps ih =>
    by_cases h : p.id = pid <;> simp [updateFirstProduct, h, hf, ih]

theorem mem_updateFirstProduct (pid : Nat) (f : Product → Product)
    (s : List Product) (q : Product) (hq : q ∈ updateFirstProduct pid f s) :
    q ∈ s ∨ ∃ p ∈ s, q = f p := by
  induction s with
  | nil => simp [updateFirstProduct] at hq
  | cons p ps ih =>
    by_cases h : p.id = pid
    · simp [updateFirstProduct, h] at hq
      rcases hq with hq | hq
      · exact Or.inr ⟨p, List.mem_cons_self p ps, hq⟩
      · exact Or.inl (List.mem_cons_of_mem p hq)
    · simp [updateFirstProduct, h] at hq
      rcases hq with hq | hq
      · exact Or.inl (hq ▸ List.mem_cons_self p ps)
      · rcases ih hq with h' | ⟨r, hr, hqr⟩
        · exact Or.inl (List.mem_cons_of_mem p h')
        · exact Or.inr ⟨r, List.mem_cons_of_mem p hr, hqr⟩

/-! ### Reserve / Release are inverse -/

theorem releaseItem_applyItem (s : List Product) (it : Item) :
    releaseItem (applyItem s it) it = s := by
  unfold releaseItem applyItem
  rw [updateFirstProduct_comp _ _ _ (fun p => stockDelta_pres_id _ _ p)]
  apply updateFirstProduct_congr_id
  intro p
  rw [stockDelta_comp]
  simp [stockDelta_id]

theorem releaseItem_applyItem_comm (s : List Product) (i j : Item) :
    releaseItem (applyItem s j) i = applyItem (releaseItem s i) j := by
  unfold releaseItem applyItem
  by_cases h : i.product = j.product
  · rw [h]
    rw [updateFirstProduct_comp _ _ _ (fun p => stockDelta_pres_id _ _ p)]
    rw [updateFirstProduct_comp _ _ _ (fun p => stockDelta_pres_id _ _ p)]
    have : (fun p => stockDelta i.variantName i.quantity
        (stockDelta j.variantName (-j.quantity) p)) =
        (fun p => stockDelta j.variantName (-j.quantity)
          (stockDelta i.variantName i.quantity p)) := by
      funext p
      exact stockDelta_comm _ _ _ _ p
    rw [this]
  · exact updateFirstProduct_comm _ _ h _ _
      (fun p => stockDelta_pres_id _ _ p) (fun p => stockDelta_pres_id _ _ p) s

theorem releaseItem_applyItems (i : Item) (l : List Item) (s : List Product) :
    releaseItem (applyItems s l) i = applyItems (releaseItem s i) l := by
  induction l generalizing s with
  | nil => rfl
  | cons j l ih =>
    show releaseItem (applyItems (applyItem s j) l) i =
      applyItems (applyItem (releaseItem s i) j) l
    rw [ih, releaseItem_applyItem_comm]

theorem releaseItems_applyItems (l : List Item) (s : List Product) :
    releaseItems (applyItems s l) l = s := by
  induction l generalizing s with
  | nil => rfl
  | cons i l ih =>
    show releaseItems (releaseItem (applyItems (applyItem s i) l) i) l = s
    rw [releaseItem_applyItems, releaseItem_applyItem]
    exact ih s

/-! ### First-match updates as maps, under unique ids / unique variant names -/

theorem adjustVariant_not_mem (n : String) (d : Int) (vs : List Variant)
    (h : ∀ v ∈ vs, v.name ≠ n) :
    vs.map (fun v => if v.name = n then { v with stock := v.stock + d } else v) = vs := by
  induction vs with
  | nil => rfl
  | cons v vs ih =>
    have hv : ¬ v.name = n := h v (List.mem_cons_self v vs)
    simp only [List.map_cons, if_neg hv]
    rw [ih (fun w hw => h w (List.mem_cons_of_mem v hw))]

theorem adjustVariant_eq_map (n : String) (d : Int) (vs : List Variant)
    (h : (vs.map Variant.name).Nodup) :
    adjustVariant n d vs =
      vs.map (fun v => if v.name = n then { v with stock := v.stock + d } else v) := by
  induction vs with
  | nil => rfl
  | cons v vs ih =>
    simp only [List.map_cons, List.nodup_cons] at h
    by_cases hv : v.name = n
    · simp only [adjustVariant, if_pos hv, List.map_cons]
      rw [adjustVariant_not_mem n d vs]
      intro w hw hwn
      apply h.1
      rw [hv, ← hwn]
      exact List.mem_map_of_mem Variant.name hw
    · simp only [adjustVariant, if_neg hv, List.map_cons]
      rw [ih h.2]

theorem updateFirstProduct_not_mem (pid : Nat) (f : Product → Product) (s : List Product)
    (h : ∀ p ∈ s, p.id ≠ pid) :
    s.map (fun p => if p.id = pid then f p else p) = s := by
  induction s with
  | nil => rfl
  | cons p ps ih =>
    have hp : ¬ p.id = pid := h p (List.mem_cons_self p ps)
    simp only [List.map_cons, if_neg hp]
    rw [ih (fun q hq => h q (List.mem_cons_of_mem p hq))]

theorem updateFirstProduct_eq_map (pid : Nat) (f : Product → Product) (s : List Product)
    (h : (s.map Product.id).Nodup) :
    updateFirstProduct pid f s = s.map (fun p => if p.id = pid then f p else p) := by
  induction s with
  | nil => rfl
  | cons p ps ih =>
    simp only [List.map_cons, List.nodup_cons] at h
    by_cases hp : p.id = pid
    · simp only [updateFirstProduct, if_pos hp, List.map_cons]
      rw [updateFirstProduct_not_mem pid f ps]
      intro q hq hqid
      apply h.1
      rw [hp, ← hqid]
      exact List.mem_map_of_mem Product.id hq
    · simp only [updateFirstProduct, if_neg hp, List.map_cons]
      rw [ih h.2]

theorem stockDelta_map_name (n? : Option String) (d : Int) (p : Product) :
    (stockDelta n? d p).variants.map Variant.name = p.variants.map Variant.name := by
  cases n? with
  | none => rfl
  | some n => simp [stockDelta, adjustVariant_map_name]

/-! ### Characterization of the decrement loop: each counter drops by the
total quantity requested against it -/

theorem reqNV_cons (it : Item) (rest : List Item) (pid : Nat) :
    reqNV (it :: rest) pid =
      (if it.product = pid ∧ it.variantName = none then it.quantity else 0) + reqNV rest pid :=
  rfl

theorem reqV_cons (it : Item) (rest : List Item) (pid : Nat) (n : String) :
    reqV (it :: rest) pid n =
      (if it.product = pid ∧ it.variantName = some n then it.quantity else 0) + reqV rest pid n :=
  rfl

theorem reserveSpec_nil (p : Product) : reserveSpec [] p = p := by
  obtain ⟨pid, pcat, pstock, pvars⟩ := p
  simp only [reserveSpec, reqNV, reqV, sub_zero]
  congr 1
  induction pvars with
  | nil => rfl
  | cons v vs ih => simp [ih]

theorem reserveSpec_cons (it : Item) (rest : List Item) (p : Product)
    (hnames : (p.variants.map Variant.name).Nodup) :
    reserveSpec rest
        (if p.id = it.product then stockDelta it.variantName (-it.quantity) p else p) =
      reserveSpec (it :: rest) p := by
  by_cases hp : p.id = it.product
  · rw [if_pos hp]
    cases hn : it.variantName with
    | none =>
      obtain ⟨pid, pcat, pstock, pvars⟩ := p
      simp only at hp
      simp only [stockDelta, reserveSpec, reqNV_cons, reqV_cons, hn,
        Product.mk.injEq, true_and]
      constructor
      · rw [if_pos (⟨hp.symm, trivial⟩ : it.product = pid ∧ True)]
        ring
      · apply List.map_congr_left
        intro v _
        have : ¬ (it.product = pid ∧ (none : Option String) = some v.name) := by
          rintro ⟨-, h⟩; exact Option.noConfusion h
        rw [if_neg this, zero_add]
    | some n =>
      obtain ⟨pid, pcat, pstock, pvars⟩ := p
      simp only at hp hnames
      have hcond : ¬ (it.product = pid ∧ it.variantName = none) := by
        rintro ⟨-, h⟩; rw [hn] at h; exact Option.noConfusion h
      simp only [stockDelta, reserveSpec, reqNV_cons, reqV_cons, hn,
        Product.mk.injEq, true_and, if_neg hcond]
      rw [adjustVariant_eq_map n (-it.quantity) pvars hnames]
      constructor
      · have : ¬ (it.product = pid ∧ (some n : Option String) = none) := by
          rintro ⟨-, h⟩; exact Option.noConfusion h
        rw [if_neg this, zero_add]
      · rw [List.map_map]
        apply List.map_congr_left
        intro v _
        by_cases hv : v.name = n
        · have hc : it.product = pid ∧ (some n : Option String) = some v.name :=
            ⟨hp.symm, by rw [hv]⟩
          simp only [Function.comp, if_pos hv, if_pos hc, Variant.mk.injEq, true_and]
          ring
        · have hc : ¬ (it.product = pid ∧ (some n : Option String) = some v.name) := by
            rintro ⟨-, h⟩
            exact hv (Option.some.inj h).symm
          simp only [Function.comp, if_neg hv, if_neg hc, Variant.mk.injEq, true_and,
            zero_add]
  · rw [if_neg hp]
    obtain ⟨pid, pcat, pstock, pvars⟩ := p
    simp only at hp
    have hp' : ¬ it.product = pid := fun h => hp h.symm
    simp only [reserveSpec, reqNV_cons, reqV_cons, Product.mk.injEq, true_and]
    constructor
    · rw [if_neg (fun hc => hp' hc.1), zero_add]
    · apply List.map_congr_left
      intro v _
      rw [if_neg (fun hc => hp' hc.1), zero_add]

theorem applyItems_eq_map (items : List Item) (store : List Product)
    (hids : (store.map Product.id).Nodup)
    (hnames : ∀ p ∈ store, (p.variants.map Variant.name).Nodup) :
    applyItems store items = store.map (reserveSpec items) := by
  induction items generalizing store with
  | nil =>
    show store = store.map (reserveSpec [])
    have : store.map (reserveSpec []) = store.map id :=
      List.map_congr_left (fun p _ => reserveSpec_nil p)
    rw [this, List.map_id]
  | cons it rest ih =>
    show applyItems (applyItem store it) rest = store.map (reserveSpec (it :: rest))
    rw [applyItem, updateFirstProduct_eq_map _ _ _ hids]
    rw [ih]
    · rw [List.map_map]
      apply List.map_congr_left
      intro p hp
      exact reserveSpec_cons it rest p (hnames p hp)
    · rw [List.map_map]
      have : (fun p => Product.id (if p.id = it.product
          then stockDelta it.variantName (-it.quantity) p else p)) = Product.id := by
        funext p
        by_cases h : p.id = it.product
        · simp [h, stockDelta_pres_id]
        · simp [h]
      rw [Function.comp_def, this]
      exact hids
    · intro p hp
      rcases List.mem_map.mp hp with ⟨q, hq, hpq⟩
      by_cases h : q.id = it.product
      · rw [← hpq, if_pos h, stockDelta_map_name]
        exact hnames q hq
      · rw [← hpq, if_neg h]
        exact hnames q hq

/-! ### The validation loop -/

theorem checkItem_ok_of_fits (store : List Product) (it : Item)
    (h : itemFits store it) : checkItem store it = .ok () := by
  cases hp : findById store it.product with
  | none => simp only [itemFits, hp] at h
  | some p =>
    cases hv : it.variantName with
    | none =>
      simp only [itemFits, hp, hv] at h
      simp only [checkItem, hp, hv]
      exact if_neg (not_lt.mpr h)
    | some n =>
      cases hw : findVariant p n with
      | none => simp only [itemFits, hp, hv, hw] at h
      | some v =>
        simp only [itemFits, hp, hv, hw] at h
        simp only [checkItem, hp, hv, hw]
        exact if_neg (not_lt.mpr h)

theorem checkItem_insufficient (store : List Product) (it : Item)
    (hres : itemResolves store it) (h : ¬ itemFits store it) :
    ∃ a, checkItem store it = .error (.insufficientStock a) := by
  cases hp : findById store it.product with
  | none => simp only [itemResolves, hp] at hres
  | some p =>
    cases hv : it.variantName with
    | none =>
      simp only [itemFits, hp, hv] at h
      simp only [checkItem, hp, hv]
      exact ⟨p.stock, if_pos (lt_of_not_le h)⟩
    | some n =>
      cases hw : findVariant p n with
      | none => simp only [itemResolves, hp, hv, hw] at hres
      | some v =>
        simp only [itemFits, hp, hv, hw] at h
        simp only [checkItem, hp, hv, hw]
        exact ⟨v.stock, if_pos (lt_of_not_le h)⟩

theorem checkItems_ok_of_fits (store : List Product) (items : List Item)
    (h : ∀ it ∈ items, itemFits store it) : checkItems store items = .ok () := by
  induction items with
  | nil => rfl
  | cons it rest ih =>
    simp only [checkItems, checkItem_ok_of_fits store it (h it (List.mem_cons_self it rest))]
    exact ih (fun i hi => h i (List.mem_cons_of_mem it hi))

theorem checkItems_insufficient (store : List Product) (items : List Item)
    (hres : ∀ it ∈ items, itemResolves store it)
    (hfail : ∃ it ∈ items, ¬ itemFits store it) :
    ∃ a, checkItems store items = .error (.insufficientStock a) := by
  induction items with
  | nil => rcases hfail with ⟨it, hit, -⟩; exact absurd hit (List.not_mem_nil it)
  | cons it rest ih =>
    by_cases hfit : itemFits store it
    · simp only [checkItems, checkItem_ok_of_fits store it hfit]
      apply ih (fun i hi => hres i (List.mem_cons_of_mem it hi))
      rcases hfail with ⟨j, hj, hjf⟩
      rcases List.mem_cons.mp hj with rfl | hj'
      · exact absurd hfit hjf
      · exact ⟨j, hj', hjf⟩
    · rcases checkItem_insufficient store it (hres it (List.mem_cons_self it rest)) hfit
        with ⟨a, ha⟩
      exact ⟨a, by simp only [checkItems, ha]⟩

/-! ### Untouched counters -/

theorem reqNV_zero (items : List Item) (pid : Nat)
    (h : ∀ it ∈ items, ¬ (it.product = pid ∧ it.variantName = none)) :
    reqNV items pid = 0 := by
  induction items with
  | nil => rfl
  | cons it rest ih =>
    rw [reqNV_cons, if_neg (h it (List.mem_cons_self it rest)),
      ih (fun i hi => h i (List.mem_cons_of_mem it hi)), zero_add]

theorem reqV_zero (items : List Item) (pid : Nat) (n : String)
    (h : ∀ it ∈ items, it.product ≠ pid) :
    reqV items pid n = 0 := by
  induction items with
  | nil => rfl
  | cons it rest ih =>
    rw [reqV_cons, if_neg (fun hc => h it (List.mem_cons_self it rest) hc.1),
      ih (fun i hi => h i (List.mem_cons_of_mem it hi)), zero_add]

theorem reserveSpec_id (items : List Item) (p : Product)
    (hs : reqNV items p.id = 0)
    (hv : ∀ v ∈ p.variants, reqV items p.id v.name = 0) :
    reserveSpec items p = p := by
  obtain ⟨pid, pcat, pstock, pvars⟩ := p
  simp only at hs hv
  simp only [reserveSpec, hs, sub_zero, Product.mk.injEq, true_and]
  have : pvars.map (fun v => ({ v with stock := v.stock - reqV items pid v.name } : Variant))
      = pvars.map id := by
    apply List.map_congr_left
    intro v hvm
    rw [hv v hvm, sub_zero]
    cases v
    rfl
  rw [this, List.map_id]

/-! ### Claim theorems: stock ledger -/

/-- C1 (counterexample): the claim as stated fails on the empty item list.
Every item of the empty list trivially fits its resolved counter, yet
`createOrder` does not succeed: it rejects the call with "No order items". -/
theorem createOrder_empty_rejected :
    (∀ it ∈ ([] : List Item), itemFits [⟨1, 1, 5, []⟩] it) ∧
    createOrder [⟨1, 1, 5, []⟩] [] = .error .noOrderItems :=
  ⟨fun it hit => absurd hit (List.not_mem_nil it), rfl⟩

/-- C1 (amended with a nonempty item list): when every item's requested
quantity is at most the stock of its resolved counter, `createOrder`
succeeds and every product document becomes `reserveSpec items` of itself:
its product-level stock drops by the total quantity requested against it
by no-variant items, and each variant's stock drops by the total quantity
requested against it by items naming that variant.  Consequently a
product none of whose counters is requested is unchanged, and an item
naming a variant leaves the product-level stock alone.  Unique document
ids and unique variant names per product (both database invariants) are
assumed. -/
theorem createOrder_decrements_each_counter
    (store : List Product) (items : List Item)
    (hids : (store.map Product.id).Nodup)
    (hnames : ∀ p ∈ store, (p.variants.map Variant.name).Nodup)
    (hne : items ≠ [])
    (hfits : ∀ it ∈ items, itemFits store it) :
    createOrder store items = .ok (store.map (reserveSpec items)) ∧
    (∀ p ∈ store, (∀ it ∈ items, it.product ≠ p.id) → reserveSpec items p = p) ∧
    (∀ p ∈ store, (∀ it ∈ items, it.product = p.id → it.variantName ≠ none) →
      (reserveSpec items p).stock = p.stock) := by
  refine ⟨?_, ?_, ?_⟩
  · have hemp : items.isEmpty = false := by
      cases items with
      | nil => exact absurd rfl hne
      | cons _ _ => rfl
    simp [createOrder, hemp, checkItems_ok_of_fits store items hfits,
      applyItems_eq_map items store hids hnames]
  · intro p _ hnone
    apply reserveSpec_id
    · exact reqNV_zero items p.id (fun it hit hc => hnone it hit hc.1)
    · intro v _
      exact reqV_zero items p.id v.name (fun it hit => hnone it hit)
  · intro p _ hvar
    have hz : reqNV items p.id = 0 :=
      reqNV_zero items p.id (fun it hit hc => hvar it hit hc.1 hc.2)
    obtain ⟨pid, pcat, pstock, pvars⟩ := p
    simp only at hz
    simp [reserveSpec, hz]

/-- Witness for C1 at the spec's scenario: product stock 5, variant "Red"
stock 3, reserving 3 of "Red" succeeds, zeroes the variant counter and
leaves the product-level stock at 5. -/
theorem createOrder_decrements_each_counter_witness :
    createOrder [⟨1, 1, 5, [⟨"Red", 3⟩]⟩] [⟨1, some "Red", 3⟩]
      = .ok [⟨1, 1, 5, [⟨"Red", 0⟩]⟩] := by
  have h := (createOrder_decrements_each_counter
    [⟨1, 1, 5, [⟨"Red", 3⟩]⟩] [⟨1, some "Red", 3⟩]
    (by decide) (by decide) (by simp)
    (by
      intro it hit
      rw [List.mem_singleton] at hit
      subst hit
      show (3 : Int) ≤ 3
      exact le_refl 3)).1
  rw [h]
  rfl

/-- C2: when every item resolves but at least one requests more than its
resolved counter holds, `createOrder` fails with `InsufficientStock` and
the product collection is unchanged (all validation happens before any
decrement). -/
theorem createOrder_insufficient_aborts
    (store : List Product) (items : List Item)
    (hres : ∀ it ∈ items, itemResolves store it)
    (hfail : ∃ it ∈ items, ¬ itemFits store it) :
    (∃ a, createOrder store items = .error (.insufficientStock a)) ∧
    storeAfterCreate store items = store := by
  obtain ⟨a, ha⟩ := checkItems_insufficient store items hres hfail
  have hemp : items.isEmpty = false := by
    rcases hfail with ⟨it, hit, -⟩
    cases items with
    | nil => exact absurd hit (List.not_mem_nil it)
    | cons _ _ => rfl
  have hco : createOrder store items = .error (.insufficientStock a) := by
    simp [createOrder, hemp, ha]
  exact ⟨⟨a, hco⟩, by simp only [storeAfterCreate, hco]⟩

/-- Witness for C2 at the spec's scenario: variant "Red" has stock 0 and
one more unit is requested; the call fails with `InsufficientStock` and
the collection is untouched. -/
theorem createOrder_insufficient_aborts_witness :
    (∃ a, createOrder [⟨1, 1, 5, [⟨"Red", 0⟩]⟩] [⟨1, some "Red", 1⟩]
        = .error (.insufficientStock a)) ∧
    storeAfterCreate [⟨1, 1, 5, [⟨"Red", 0⟩]⟩] [⟨1, some "Red", 1⟩]
      = [⟨1, 1, 5, [⟨"Red", 0⟩]⟩] :=
  createOrder_insufficient_aborts _ _
    (fun it hit => by
      rw [List.mem_singleton] at hit
      subst hit
      trivial)
    ⟨⟨1, some "Red", 1⟩, List.mem_singleton.mpr rfl, (by omega : ¬ (1 : Int) ≤ 0)⟩

/-- C7: a successful reservation followed by a release of the same item
list (the stock-restoration loop of `cancelOrder`) restores the whole
product collection, every touched counter included, to its pre-reserve
value. -/
theorem reserve_then_release_restores
    (store : List Product) (items : List Item) (s' : List Product)
    (h : createOrder store items = .ok s') :
    releaseItems s' items = store := by
  unfold createOrder at h
  by_cases hemp : items.isEmpty
  · rw [if_pos hemp] at h
    exact absurd h (by simp)
  · rw [if_neg hemp] at h
    cases hc : checkItems store items with
    | error e =>
      rw [hc] at h
      exact absurd h (by simp)
    | ok u =>
      cases u
      rw [hc] at h
      cases Except.ok.inj h
      exact releaseItems_applyItems items store

/-- Witness for C7: reserving 3 of variant "Red" and then releasing the
same item list restores the initial collection. -/
theorem reserve_then_release_restores_witness :
    releaseItems (applyItems [⟨1, 1, 5, [⟨"Red", 3⟩]⟩] [⟨1, some "Red", 3⟩])
        [⟨1, some "Red", 3⟩]
      = [⟨1, 1, 5, [⟨"Red", 3⟩]⟩] :=
  reserve_then_release_restores _ _ _ rfl

/-! ### Order lifecycle -/

theorem cancelOrder_not_allowed (store : List Product) (o : Order) (auth : Bool)
    (h1 : o.status ≠ .pending) (h2 : o.status ≠ .processing) :
    cancelOrder store o auth = .error .cannotCancel := by
  unfold cancelOrder
  rw [if_pos ⟨h1, h2⟩]

theorem cancelOrder_ok_inv (store : List Product) (o : Order) (auth : Bool)
    (o' : Order) (s' : List Product) (h : cancelOrder store o auth = .ok (o', s')) :
    (o.status = .pending ∨ o.status = .processing) ∧
    o' = { o with status := .cancelled } ∧ s' = releaseItems store o.orderItems := by
  unfold cancelOrder at h
  split_ifs at h with h1 h2
  have hp := Except.ok.inj h
  have hfst : o' = { o with status := .cancelled } := (congrArg Prod.fst hp).symm
  have hsnd : s' = releaseItems store o.orderItems := (congrArg Prod.snd hp).symm
  refine ⟨?_, hfst, hsnd⟩
  rcases not_and_or.mp h1 with hc | hc
  · exact Or.inl (not_not.mp hc)
  · exact Or.inr (not_not.mp hc)

/-- C3 (counterexample): `delivered` is not a terminal state.  Calling
`updateOrderToPaid` on an already delivered order moves its status back to
`processing`, contradicting the claim that no operation changes the status
of a delivered order. -/
theorem delivered_not_terminal :
    (updateOrderToPaid ⟨.delivered, true, true, []⟩).status = .processing ∧
    OrderStatus.processing ≠ OrderStatus.delivered :=
  ⟨rfl, fun h => OrderStatus.noConfusion h⟩

/-- C3 (amended): orders are created in `pending`; `cancelOrder` succeeds
only from `pending` or `processing` and moves the order to `cancelled`;
but `updateOrderToPaid`, `updateOrderToDelivered` and `updateOrderStatus`
set the status unconditionally, whatever the current status, so
`delivered` and `cancelled` are not terminal under those operations. -/
theorem order_lifecycle :
    (∀ items, (newOrder items).status = .pending) ∧
    (∀ (store : List Product) (o : Order) (auth : Bool),
      o.status = .delivered ∨ o.status = .cancelled →
      cancelOrder store o auth = .error .cannotCancel) ∧
    (∀ (store : List Product) (o : Order) (auth : Bool) (o' : Order) (s' : List Product),
      cancelOrder store o auth = .ok (o', s') →
      (o.status = .pending ∨ o.status = .processing) ∧ o'.status = .cancelled) ∧
    (∀ o : Order, (updateOrderToPaid o).status = .processing) ∧
    (∀ o : Order, (updateOrderToDelivered o).status = .delivered) ∧
    (∀ (o : Order) (s : OrderStatus), (updateOrderStatus o (some s)).status = s) ∧
    (∀ o : Order, (updateOrderStatus o none).status = o.status) := by
  refine ⟨fun items => rfl, ?_, ?_, fun o => rfl, fun o => rfl, ?_, fun o => rfl⟩
  · intro store o auth h
    apply cancelOrder_not_allowed
    · rcases h with h | h <;> rw [h] <;> intro hc <;> exact OrderStatus.noConfusion hc
    · rcases h with h | h <;> rw [h] <;> intro hc <;> exact OrderStatus.noConfusion hc
  · intro store o auth o' s' h
    obtain ⟨hst, ho', -⟩ := cancelOrder_ok_inv store o auth o' s' h
    exact ⟨hst, by rw [ho']⟩
  · intro o s
    simp only [updateOrderStatus, Option.getD]
    split <;> rfl

/-- Witness for C3's hypotheses: a cancelled order cannot be cancelled
again. -/
theorem order_lifecycle_witness :
    cancelOrder [] ⟨.cancelled, false, false, []⟩ true = .error .cannotCancel :=
  order_lifecycle.2.1 [] ⟨.cancelled, false, false, []⟩ true (Or.inr rfl)

/-! ### Non-negativity of stock -/

theorem mem_adjustVariant (n : String) (d : Int) (vs : List Variant) (w : Variant)
    (hw : w ∈ adjustVariant n d vs) :
    w ∈ vs ∨ ∃ v ∈ vs, w = { v with stock := v.stock + d } := by
  induction vs with
  | nil => simp [adjustVariant] at hw
  | cons v vs ih =>
    by_cases h : v.name = n
    · simp only [adjustVariant, if_pos h] at hw
      rcases List.mem_cons.mp hw with hw | hw
      · exact Or.inr ⟨v, List.mem_cons_self v vs, hw⟩
      · exact Or.inl (List.mem_cons_of_mem v hw)
    · simp only [adjustVariant, if_neg h] at hw
      rcases List.mem_cons.mp hw with hw | hw
      · exact Or.inl (hw ▸ List.mem_cons_self v vs)
      · rcases ih hw with h' | ⟨u, hu, hwu⟩
        · exact Or.inl (List.mem_cons_of_mem v h')
        · exact Or.inr ⟨u, List.mem_cons_of_mem v hu, hwu⟩

theorem nonnegP_stockDelta (n? : Option String) (d : Int) (p : Product)
    (hd : 0 ≤ d) (hp : nonnegP p) : nonnegP (stockDelta n? d p) := by
  cases n? with
  | none =>
    exact ⟨add_nonneg hp.1 hd, fun v hv => hp.2 v hv⟩
  | some n =>
    refine ⟨hp.1, ?_⟩
    intro w hw
    rcases mem_adjustVariant n d p.variants w hw with h | ⟨v, hv, hwv⟩
    · exact hp.2 w h
    · rw [hwv]
      exact add_nonneg (hp.2 v hv) hd

theorem nonnegStore_updateFirstProduct (pid : Nat) (f : Product → Product)
    (s : List Product) (hs : nonnegStore s)
    (hf : ∀ p, nonnegP p → nonnegP (f p)) :
    nonnegStore (updateFirstProduct pid f s) := by
  intro q hq
  rcases mem_updateFirstProduct pid f s q hq with h | ⟨p, hp, hqp⟩
  · exact hs q h
  · exact hqp ▸ hf p (hs p hp)

theorem nonnegStore_releaseItems (items : List Item) :
    ∀ (s : List Product), (∀ it ∈ items, 0 ≤ it.quantity) → nonnegStore s →
      nonnegStore (releaseItems s items) := by
  induction items with
  | nil => intro s _ hs; exact hs
  | cons it rest ih =>
    intro s hq hs
    exact ih (releaseItem s it) (fun i hi => hq i (List.mem_cons_of_mem it hi))
      (nonnegStore_updateFirstProduct _ _ s hs
        (fun p hp => nonnegP_stockDelta _ _ p (hq it (List.mem_cons_self it rest)) hp))

/-- C4 (counterexample): `updateProduct` performs no validation of the
supplied stock: starting from a product with non-negative counters,
supplying `stock = -1` persists a negative stock, violating the claimed
invariant (the schema has no `min: 0` either). -/
theorem updateProduct_negative_stock :
    nonnegP ⟨1, 1, 5, []⟩ ∧
    ¬ nonnegP (updateProduct ⟨1, 1, 5, []⟩ (some (-1)) none) :=
  ⟨⟨by norm_num, fun v hv => absurd hv (List.not_mem_nil v)⟩,
   fun h => absurd h.1 (by decide)⟩

/-- C4 (amended): non-negativity of every product and variant counter is
preserved by `cancelOrder` (given non-negative quantities) and by a
successful `createOrder` in which each counter's total requested quantity
is at most its stock; `updateProduct` preserves it only when the supplied
stock and variant stocks are themselves non-negative, since it persists
the caller's values unchecked. -/
theorem stock_nonneg_invariant :
    (∀ (store : List Product) (o : Order) (auth : Bool) (o' : Order) (s' : List Product),
      nonnegStore store → (∀ it ∈ o.orderItems, 0 ≤ it.quantity) →
      cancelOrder store o auth = .ok (o', s') → nonnegStore s') ∧
    (∀ (store : List Product) (items : List Item) (s' : List Product),
      (store.map Product.id).Nodup →
      (∀ p ∈ store, (p.variants.map Variant.name).Nodup) →
      nonnegStore store →
      (∀ p ∈ store, reqNV items p.id ≤ p.stock ∧
        ∀ v ∈ p.variants, reqV items p.id v.name ≤ v.stock) →
      createOrder store items = .ok s' → nonnegStore s') ∧
    (∀ (p : Product) (stock? : Option Int) (variants? : Option (List Variant)),
      nonnegP p →
      (∀ s, stock? = some s → 0 ≤ s) →
      (∀ vs, variants? = some vs → ∀ v ∈ vs, 0 ≤ v.stock) →
      nonnegP (updateProduct p stock? variants?)) := by
  refine ⟨?_, ?_, ?_⟩
  · intro store o auth o' s' hnn hq hc
    obtain ⟨-, -, hs⟩ := cancelOrder_ok_inv store o auth o' s' hc
    rw [hs]
    exact nonnegStore_releaseItems o.orderItems store hq hnn
  · intro store items s' hids hnames hnn hbound hc
    unfold createOrder at hc
    by_cases hemp : items.isEmpty
    · rw [if_pos hemp] at hc
      exact absurd hc (by simp)
    · rw [if_neg hemp] at hc
      cases hchk : checkItems store items with
      | error e =>
        rw [hchk] at hc
        exact absurd hc (by simp)
      | ok u =>
        cases u
        rw [hchk] at hc
        cases Except.ok.inj hc
        rw [applyItems_eq_map items store hids hnames]
        intro q hq
        rcases List.mem_map.mp hq with ⟨p, hp, hqp⟩
        rw [← hqp]
        constructor
        · exact sub_nonneg.mpr (hbound p hp).1
        · intro w hw
          rcases List.mem_map.mp hw with ⟨v, hv, hwv⟩
          rw [← hwv]
          exact sub_nonneg.mpr ((hbound p hp).2 v hv)
  · intro p stock? variants? hp hs hv
    constructor
    · cases stock? with
      | none => exact hp.1
      | some s => exact hs s rfl
    · intro v hv'
      cases variants? with
      | none => exact hp.2 v hv'
      | some vs => exact hv vs rfl v hv'

/-- Witness for C4's hypotheses: a supplied non-negative stock keeps the
invariant. -/
theorem stock_nonneg_invariant_witness :
    nonnegP (updateProduct ⟨1, 1, 5, []⟩ (some 2) none) :=
  stock_nonneg_invariant.2.2 ⟨1, 1, 5, []⟩ (some 2) none
    ⟨by norm_num, fun v hv => absurd hv (List.not_mem_nil v)⟩
    (fun s hs => by rw [← Option.some.inj hs]; norm_num)
    (fun vs hvs => Option.noConfusion hvs)

/-- C9: `cancelOrder` on an order whose status is neither `pending` nor
`processing` fails before any mutation (the collection is unchanged), and
a second cancellation of an order produced by a successful cancellation
always fails the same way — stock can never be double-restored through
the cancellation endpoint. -/
theorem cancelOrder_no_double_restore :
    (∀ (store : List Product) (o : Order) (auth : Bool),
      o.status ≠ .pending → o.status ≠ .processing →
      cancelOrder store o auth = .error .cannotCancel ∧
      storeAfterCancel store o auth = store) ∧
    (∀ (store : List Product) (o : Order) (auth : Bool) (o' : Order)
        (s' : List Product) (auth' : Bool),
      cancelOrder store o auth = .ok (o', s') →
      cancelOrder s' o' auth' = .error .cannotCancel ∧
      storeAfterCancel s' o' auth' = s') := by
  have key : ∀ (store : List Product) (o : Order) (auth : Bool),
      o.status ≠ .pending → o.status ≠ .processing →
      cancelOrder store o auth = .error .cannotCancel ∧
      storeAfterCancel store o auth = store := by
    intro store o auth h1 h2
    have he := cancelOrder_not_allowed store o auth h1 h2
    exact ⟨he, by simp only [storeAfterCancel, he]⟩
  refine ⟨key, ?_⟩
  intro store o auth o' s' auth' hok
  obtain ⟨-, ho', -⟩ := cancelOrder_ok_inv store o auth o' s' hok
  have hst : o'.status = .cancelled := by rw [ho']
  exact key s' o' auth' (fun hc => OrderStatus.noConfusion (hst ▸ hc))
    (fun hc => OrderStatus.noConfusion (hst ▸ hc))

/-- Witness for C9's hypotheses: cancelling a delivered order fails and
leaves the collection alone. -/
theorem cancelOrder_no_double_restore_witness :
    cancelOrder [] ⟨.delivered, false, false, []⟩ true = .error .cannotCancel ∧
    storeAfterCancel [] ⟨.delivered, false, false, []⟩ true = [] :=
  cancelOrder_no_double_restore.1 [] ⟨.delivered, false, false, []⟩ true
    (fun h => OrderStatus.noConfusion h) (fun h => OrderStatus.noConfusion h)

/-! ### Category hierarchy: the ancestor walk -/

theorem findCategory_eq (cats : List Category) (cid : Nat) (c : Category)
    (h : findCategory cats cid = some c) : c.id = cid ∧ c ∈ cats := by
  unfold findCategory at h
  have h1 := List.find?_some h
  simp only [decide_eq_true_eq] at h1
  exact ⟨h1, List.mem_of_find?_eq_some h⟩

theorem rankOpt_parentOf_lt (cats : List Category) (rank : Nat → Nat)
    (hA : Acyclic cats rank) (pid : Nat) (f : Nat) (h : rank pid < f) :
    rankOpt rank (parentOf cats pid) < f := by
  cases hpc : findCategory cats pid with
  | none =>
    unfold parentOf
    rw [hpc]
    show 0 < f
    omega
  | some c =>
    obtain ⟨hid, hmem⟩ := findCategory_eq _ _ _ hpc
    unfold parentOf
    rw [hpc]
    show rankOpt rank c.parent < f
    cases hcp : c.parent with
    | none =>
      show 0 < f
      omega
    | some q =>
      have hlt := hA.1 c hmem
      rw [hcp] at hlt
      rw [hid] at hlt
      show rank q + 1 < f
      omega

theorem walkUp_terminates (cats : List Category) (target : Nat) (rank : Nat → Nat)
    (hA : Acyclic cats rank) :
    ∀ (fuel : Nat) (st : Option Nat), rankOpt rank st < fuel →
      ∃ b, walkUp cats target st fuel = some b := by
  intro fuel
  induction fuel with
  | zero => intro st h; exact absurd h (Nat.not_lt_zero _)
  | succ f ih =>
    intro st h
    cases st with
    | none => exact ⟨false, rfl⟩
    | some pid =>
      by_cases ht : pid = target
      · exact ⟨true, by simp [walkUp, ht]⟩
      · have hr : rank pid < f := Nat.lt_of_succ_lt_succ h
        obtain ⟨b, hb⟩ := ih (parentOf cats pid) (rankOpt_parentOf_lt cats rank hA pid f hr)
        exact ⟨b, by simp only [walkUp, if_neg ht]; exact hb⟩

theorem not_inChain_none (cats : List Category) (target : Nat) :
    ¬ InChain cats target none :=
  fun h => nomatch h

theorem inChain_some_iff (cats : List Category) (target pid : Nat) (hne : pid ≠ target) :
    InChain cats target (some pid) ↔ InChain cats target (parentOf cats pid) := by
  constructor
  · intro h
    cases h with
    | hit => exact absurd rfl hne
    | step _ _ h' => exact h'
  · exact fun h => InChain.step pid hne h

theorem walkUp_true_iff (cats : List Category) (target : Nat) (rank : Nat → Nat)
    (hA : Acyclic cats rank) :
    ∀ (fuel : Nat) (st : Option Nat), rankOpt rank st < fuel →
      (walkUp cats target st fuel = some true ↔ InChain cats target st) := by
  intro fuel
  induction fuel with
  | zero => intro st h; exact absurd h (Nat.not_lt_zero _)
  | succ f ih =>
    intro st h
    cases st with
    | none =>
      apply iff_of_false
      · intro hw
        exact Bool.noConfusion (Option.some.inj hw)
      · exact not_inChain_none cats target
    | some pid =>
      by_cases ht : pid = target
      · apply iff_of_true
        · simp [walkUp, ht]
        · exact ht ▸ InChain.hit
      · have hr : rank pid < f := Nat.lt_of_succ_lt_succ h
        have hnext := rankOpt_parentOf_lt cats rank hA pid f hr
        rw [inChain_some_iff cats target pid ht]
        rw [← ih (parentOf cats pid) hnext]
        constructor
        · intro hw
          rw [← hw]
          simp only [walkUp, if_neg ht]
        · intro hw
          simp only [walkUp, if_neg ht]
          exact hw

theorem rankOpt_parent_lt_len (cats : List Category) (rank : Nat → Nat)
    (hA : Acyclic cats rank) (p : Nat) :
    rankOpt rank (parentOf cats p) < cats.length + 1 := by
  cases hfp : findCategory cats p with
  | none =>
    unfold parentOf
    rw [hfp]
    show 0 < cats.length + 1
    omega
  | some pc =>
    obtain ⟨hid, hmem⟩ := findCategory_eq _ _ _ hfp
    have hrank : rank p < cats.length := hid ▸ hA.2 pc hmem
    exact rankOpt_parentOf_lt cats rank hA p _ (by omega)

/-! ### Claim theorems: category hierarchy -/

/-- C8: on an acyclic stored parent graph (witnessed by a rank function
that decreases along every parent edge and is bounded by the collection
size) the ancestor walk always terminates — it reaches a root or the
target id within rank-many hops, so the walk needs no more fuel than the
node's rank, and the `updateCategory` handler (which allots
`cats.length + 1` hops) never diverges. -/
theorem ancestor_walk_terminates (cats : List Category) (rank : Nat → Nat)
    (hA : Acyclic cats rank) :
    (∀ (target : Nat) (st : Option Nat) (fuel : Nat), rankOpt rank st < fuel →
      ∃ b, walkUp cats target st fuel = some b) ∧
    (∀ (cid : Nat) (np : Option (Option Nat)), updateCategory cats cid np ≠ none) := by
  constructor
  · intro target st fuel h
    exact walkUp_terminates cats target rank hA fuel st h
  · intro cid np
    cases hc : findCategory cats cid with
    | none => simp [updateCategory, hc]
    | some c =>
      cases np with
      | none => simp [updateCategory, hc]
      | some np' =>
        cases np' with
        | none => simp [updateCategory, hc]
        | some p =>
          by_cases hp : p = c.id
          · simp [updateCategory, hc, hp]
          · simp only [updateCategory, hc]
            rw [if_neg hp]
            obtain ⟨b, hb⟩ := walkUp_terminates cats c.id rank hA (cats.length + 1)
              (parentOf cats p) (rankOpt_parent_lt_len cats rank hA p)
            rw [hb]
            cases b <;> simp

/-- Witness for C8 on the three-node chain 1 ← 2 ← 3 with rank `n - 1`. -/
theorem ancestor_walk_terminates_witness :
    updateCategory [⟨1, none⟩, ⟨2, some 1⟩, ⟨3, some 2⟩] 1 (some (some 3)) ≠ none :=
  (ancestor_walk_terminates [⟨1, none⟩, ⟨2, some 1⟩, ⟨3, some 2⟩] (fun n => n - 1)
    ⟨by intro c hc; fin_cases hc <;> simp, by intro c hc; fin_cases hc <;> simp⟩).2
    1 (some (some 3))

/-- C5: on an acyclic store, `updateCategory` with a proposed parent `p`
for the existing category `cid` fails with `InvalidHierarchy` exactly when
`p` is the category's own id or `cid` appears in the ancestor chain of `p`
(walking parent references up to a root). -/
theorem reparent_invalid_iff (cats : List Category) (rank : Nat → Nat)
    (hA : Acyclic cats rank) (cid p : Nat) (c : Category)
    (hc : findCategory cats cid = some c) :
    updateCategory cats cid (some (some p)) = some (.error .invalidHierarchy)
      ↔ (p = cid ∨ InChain cats cid (parentOf cats p)) := by
  have hcid : c.id = cid := (findCategory_eq _ _ _ hc).1
  simp only [updateCategory, hc]
  by_cases hp : p = c.id
  · rw [if_pos hp]
    exact iff_of_true rfl (Or.inl (hp.trans hcid))
  · rw [if_neg hp]
    have hfuel := rankOpt_parent_lt_len cats rank hA p
    obtain ⟨b, hb⟩ := walkUp_terminates cats c.id rank hA (cats.length + 1)
      (parentOf cats p) hfuel
    have hiff := walkUp_true_iff cats c.id rank hA (cats.length + 1) (parentOf cats p) hfuel
    rw [hb]
    cases b with
    | true =>
      apply iff_of_true
      · rfl
      · exact Or.inr (hcid ▸ hiff.mp hb)
    | false =>
      apply iff_of_false
      · simp
      · rintro (hpc | hchain)
        · exact hp (hpc.trans hcid.symm)
        · have : walkUp cats c.id (parentOf cats p) (cats.length + 1) = some true :=
            hiff.mpr (hcid ▸ hchain)
          rw [hb] at this
          exact Bool.noConfusion (Option.some.inj this)

/-- Witness for C5 on the spec's chain A ← B ← C (1 ← 2 ← 3): reparenting
A under C is rejected as a circular reference. -/
theorem reparent_invalid_iff_witness :
    updateCategory [⟨1, none⟩, ⟨2, some 1⟩, ⟨3, some 2⟩] 1 (some (some 3))
      = some (.error .invalidHierarchy) :=
  (reparent_invalid_iff [⟨1, none⟩, ⟨2, some 1⟩, ⟨3, some 2⟩] (fun n => n - 1)
    ⟨by intro c hc; fin_cases hc <;> simp, by intro c hc; fin_cases hc <;> simp⟩
    1 3 ⟨1, none⟩ rfl).mpr
    (Or.inr (InChain.step 2 (by omega) InChain.hit))

theorem findCategory_cons (k : Category) (ks : List Category) (cid : Nat) :
    findCategory (k :: ks) cid = if k.id = cid then some k else findCategory ks cid := by
  unfold findCategory
  by_cases h : k.id = cid
  · rw [if_pos h]
    exact List.find?_cons_of_pos _ (decide_eq_true h)
  · rw [if_neg h]
    exact List.find?_cons_of_neg _ (by simp [h])

theorem findCategory_setParent (cats : List Category) (cid : Nat) (np : Option Nat)
    (c : Category) (hc : findCategory cats cid = some c) :
    findCategory (setParent cats cid np) cid = some { c with parent := np } := by
  induction cats with
  | nil => simp [findCategory] at hc
  | cons k ks ih =>
    by_cases h : k.id = cid
    · rw [findCategory_cons, if_pos h] at hc
      have hck : c = k := (Option.some.inj hc).symm
      unfold setParent
      rw [if_pos h]
      rw [findCategory_cons,
        if_pos (show ({ k with parent := np } : Category).id = cid from h)]
      rw [hck]
    · rw [findCategory_cons, if_neg h] at hc
      unfold setParent
      rw [if_neg h]
      rw [findCategory_cons, if_neg h]
      exact ih hc

/-- C10: when the target category exists but the proposed parent id does
not resolve, `updateCategory` succeeds — the walk treats the missing
parent as a root — and the dangling parent reference is persisted on the
category. -/
theorem reparent_dangling_parent (cats : List Category) (cid p : Nat) (c : Category)
    (hc : findCategory cats cid = some c) (hp : findCategory cats p = none) :
    updateCategory cats cid (some (some p)) = some (.ok (setParent cats cid (some p))) ∧
    findCategory (setParent cats cid (some p)) cid = some { c with parent := some p } := by
  have hcid : c.id = cid := (findCategory_eq _ _ _ hc).1
  have hpc : p ≠ c.id := by
    intro h
    rw [h, hcid] at hp
    rw [hp] at hc
    exact Option.noConfusion hc
  constructor
  · simp only [updateCategory, hc]
    rw [if_neg hpc]
    have hroot : parentOf cats p = none := by
      unfold parentOf
      rw [hp]
      rfl
    rw [hroot, hcid]
    rfl
  · exact findCategory_setParent cats cid (some p) c hc

/-- Witness for C10: category 1 exists, proposed parent 7 does not; the
update succeeds and persists the dangling reference. -/
theorem reparent_dangling_parent_witness :
    updateCategory [⟨1, none⟩] 1 (some (some 7))
        = some (.ok (setParent [⟨1, none⟩] 1 (some 7))) ∧
    findCategory (setParent [⟨1, none⟩] 1 (some 7)) 1 = some ⟨1, some 7⟩ :=
  reparent_dangling_parent [⟨1, none⟩] 1 7 ⟨1, none⟩ rfl rfl

theorem any_parent_iff (cats : List Category) (cid : Nat) :
    cats.any (fun k => k.parent = some cid) = true ↔ ∃ k ∈ cats, k.parent = some cid := by
  rw [List.any_eq_true]
  simp only [decide_eq_true_eq]

theorem any_category_iff (prods : List Product) (cid : Nat) :
    prods.any (fun q => q.category = cid) = true ↔ ∃ q ∈ prods, q.category = cid := by
  rw [List.any_eq_true]
  simp only [decide_eq_true_eq]

/-- C6: for an existing target category, `deleteCategory` fails with
`HasChildren` whenever some stored category references the target as its
parent (regardless of products — this check runs first); otherwise fails
with `HasProducts` when some product references the target; otherwise
succeeds and removes the category (no remaining category carries the
target id, given unique ids). -/
theorem deleteCategory_checks (cats : List Category) (prods : List Product)
    (cid : Nat) (c : Category) (hc : findCategory cats cid = some c)
    (hids : (cats.map Category.id).Nodup) :
    ((∃ k ∈ cats, k.parent = some cid) →
      deleteCategory cats prods cid = .error .hasChildren) ∧
    ((¬ ∃ k ∈ cats, k.parent = some cid) → (∃ q ∈ prods, q.category = cid) →
      deleteCategory cats prods cid = .error .hasProducts) ∧
    ((¬ ∃ k ∈ cats, k.parent = some cid) → (¬ ∃ q ∈ prods, q.category = cid) →
      deleteCategory cats prods cid = .ok (cats.eraseP (fun k => k.id = cid)) ∧
      ∀ k ∈ cats.eraseP (fun k => k.id = cid), k.id ≠ cid) := by
  obtain ⟨hcid, hmem⟩ := findCategory_eq _ _ _ hc
  refine ⟨?_, ?_, ?_⟩
  · intro hch
    simp only [deleteCategory, hc]
    rw [hcid]
    rw [if_pos ((any_parent_iff cats cid).mpr hch)]
  · intro hch hpr
    simp only [deleteCategory, hc]
    rw [hcid]
    rw [if_neg (fun hcc => hch ((any_parent_iff cats cid).mp hcc))]
    rw [if_pos ((any_category_iff prods cid).mpr hpr)]
  · intro hch hpr
    constructor
    · simp only [deleteCategory, hc]
      rw [hcid]
      rw [if_neg (fun hcc => hch ((any_parent_iff cats cid).mp hcc))]
      rw [if_neg (fun hcc => hpr ((any_category_iff prods cid).mp hcc))]
    · intro k hk hkid
      have hpc : (fun x : Category => decide (x.id = cid)) c = true := decide_eq_true hcid
      obtain ⟨a', l₁, l₂, hl₁, hpa, hsplit, herase⟩ :=
        @List.exists_of_eraseP Category (fun x => decide (x.id = cid)) cats c hmem hpc
      rw [herase] at hk
      rcases List.mem_append.mp hk with hk1 | hk2
      · have hne := hl₁ k hk1
        simp only [decide_eq_true_eq] at hne
        exact hne hkid
      · have ha' : a'.id = cid := by
          have h' := hpa
          simp only [decide_eq_true_eq] at h'
          exact h'
        have hnd := hids
        rw [hsplit, List.map_append, List.map_cons] at hnd
        obtain ⟨-, h2, -⟩ := List.nodup_append.mp hnd
        apply (List.nodup_cons.mp h2).1
        rw [ha', ← hkid]
        exact List.mem_map_of_mem Category.id hk2

/-- Witness for C6 at the spec's scenario: Electronics (1, root) with
child Smartphones (2); deleting Electronics fails with `HasChildren`. -/
theorem deleteCategory_checks_witness :
    deleteCategory [⟨1, none⟩, ⟨2, some 1⟩] [] 1 = .error .hasChildren :=
  (deleteCategory_checks [⟨1, none⟩, ⟨2, some 1⟩] [] 1 ⟨1, none⟩ rfl (by decide)).1
    ⟨⟨2, some 1⟩, by decide, rfl⟩

end EcommerceStore
